import Mathlib

/-!
Shallow embedding of the Persistent-Data-Structures repository
(src/src/version_tree.h and src/src/persistent_list.hpp) and proofs
settling the specification claims against it.

Conventions:
* C++ `size_t` arithmetic is modelled as `Nat` with explicit `% 2^64`
  where the source can wrap (subtraction, decrement of a possibly-zero
  size).
* `std::vector`/`std::list` become `List`; `std::unordered_map<long, size_t>`
  becomes an association list with in-place update (`mapSet`), which keeps
  keys unique, so its extensional behaviour matches the hash map.
* Fallible C++ paths (throws) and undefined behaviour (out-of-bounds
  `operator[]`, null dereference) are modelled with `Option`/`Res` result
  types; a thrown `std::out_of_range` is `PErr.outOfRange`, undefined
  behaviour is `PErr.ub`, and loops whose C++ counterpart would not
  terminate return `PErr.noFuel`.
-/

set_option linter.unusedVariables false

/-- Unchecked list indexing, as in `operator[]`: `none` marks an access the
C++ source performs out of bounds (undefined behaviour). -/
def vecGet? {β : Type} : List β → Nat → Option β
  | [], _ => none
  | x :: _, 0 => some x
  | _ :: xs, n + 1 => vecGet? xs n

/-- Insert an element so that it ends up at position `n` (the model of
`std::list::insert` before the iterator at position `n`). -/
def listInsertAt {β : Type} : List β → Nat → β → List β
  | xs, 0, v => v :: xs
  | [], _ + 1, v => [v]
  | x :: xs, n + 1, v => x :: listInsertAt xs n v

/-- `[a, a+1, ..., a+len-1]`. -/
def natRange (a : Nat) : Nat → List Nat
  | 0 => []
  | n + 1 => a :: natRange (a + 1) n

/-- 2^64, the modulus of `size_t` arithmetic on the 64-bit target. -/
def U64 : Nat := 2 ^ 64

/-- `size_t` subtraction `a - b` (wraps modulo 2^64). -/
def sub64 (a b : Nat) : Nat := (a + U64 - b) % U64

/-- `size_t` decrement `n - 1` (wraps modulo 2^64 when `n = 0`). -/
def pred64 (n : Nat) : Nat := (n + (U64 - 1)) % U64

/-! ## VersionTree (src/src/version_tree.h)

The event list stores only the version key of each node (`Node::label` is
never read through the list; labels live in the two maps).  Open events
store `v`, close events store `-v`, and the right sentinel stores
`NONE_VERSION`. -/

/-- Modelled from the spec: `VersionTree::NONE_VERSION` is declared in
src/src/version_tree.h but defined in a source file that is not part of
src/.  Spec section 3.2 says to use a reserved value such as the minimum
integer, so we take the minimum of a 64-bit `long`. -/
def NONE_VERSION : Int := -(2 ^ 63)

structure VersionTree where
  events : List Int
  labelsNumber : Nat
  labelToVersion : List Int
  versionToLabel : List (Int × Nat)
  deriving DecidableEq

/-- Lookup in the `_versionToLabel` map (`unordered_map::at`; `none` models
the `std::out_of_range` it throws when the key is missing). -/
def mapGet? : List (Int × Nat) → Int → Option Nat
  | [], _ => none
  | (k, v) :: rest, k2 => if k = k2 then some v else mapGet? rest k2

/-- Insert-or-update in the `_versionToLabel` map (`operator[]` assignment). -/
def mapSet : List (Int × Nat) → Int → Nat → List (Int × Nat)
  | [], k, v => [(k, v)]
  | (k1, v1) :: rest, k, v =>
    if k1 = k then (k, v) :: rest else (k1, v1) :: mapSet rest k v

/-- Occupied-slot count of `_getRangeDensity`: the number of labels in
`[rangeStart, rangeEnd)` whose slot is not `NONE_VERSION`.  (The source
divides this by the window size to get a `double` density; the comparison
against the threshold is delegated to the `dlt` parameter below.) -/
def VersionTree.rangeOccupied (t : VersionTree) (rangeStart rangeEnd : Nat) : Nat :=
  (natRange rangeStart (rangeEnd - rangeStart)).countP
    (fun i => (t.labelToVersion.getD i NONE_VERSION) != NONE_VERSION)

/-- Collect the occupants of a label window in slot order. -/
def VersionTree.collectRange (t : VersionTree) (rangeStart rangeEnd : Nat) : List Int :=
  (natRange rangeStart (rangeEnd - rangeStart)).filterMap
    (fun i =>
      let v := t.labelToVersion.getD i NONE_VERSION
      if v = NONE_VERSION then none else some v)

/-- `std::fill` of the window with `NONE_VERSION`. -/
def fillNone (xs : List Int) (rangeStart rangeEnd : Nat) : List Int :=
  (natRange rangeStart (rangeEnd - rangeStart)).foldl
    (fun ys i => ys.set i NONE_VERSION) xs

/-- The placement loop shared by `_relabelRange` and `_relabelAll`:
`for (i = start; i < bound; i += step) { if empty break; place front }`. -/
def placeVersions :
    List Int → List Int → List (Int × Nat) → Nat → Nat → Nat →
      List Int × List (Int × Nat)
  | [], l2v, v2l, _, _, _ => (l2v, v2l)
  | v :: rest, l2v, v2l, i, step, bound =>
    if i < bound then
      placeVersions rest (l2v.set i v) (mapSet v2l v i) (i + step) step bound
    else (l2v, v2l)

/-- `VersionTree::_relabelRange`.  Note the source computes
`step = rangeEnd - rangeStart` (the whole window), not the window size
divided by the number of occupants. -/
def VersionTree.relabelRange (t : VersionTree) (rangeStart rangeEnd : Nat) :
    VersionTree :=
  let rangeVersions := t.collectRange rangeStart rangeEnd
  let l2v1 := fillNone t.labelToVersion rangeStart rangeEnd
  let step := rangeEnd - rangeStart
  let p := placeVersions rangeVersions l2v1 t.versionToLabel rangeStart step rangeEnd
  { t with
    labelToVersion := p.1
    versionToLabel := mapSet p.2 NONE_VERSION (t.labelsNumber - 1) }

/-- `VersionTree::_relabelAll`: double the label space and respace every
occupant at `step = M / count`.  (`count = 0` would be a division by zero in
the source; the model then places nothing.) -/
def VersionTree.relabelAll (t : VersionTree) : VersionTree :=
  let rangeVersions := t.labelToVersion.filter (fun v => v != NONE_VERSION)
  let m2 := 2 * t.labelsNumber
  let l2v1 := List.replicate m2 NONE_VERSION
  let step := m2 / rangeVersions.length
  let p := placeVersions rangeVersions l2v1 t.versionToLabel 0 step m2
  { events := t.events
    labelsNumber := m2
    labelToVersion := p.1
    versionToLabel := mapSet p.2 NONE_VERSION (m2 - 1) }

/-- The window-search loop of `VersionTree::_relabel`.  `dlt o s` stands for
the source's `double` comparison `o / s < pow(OVERFLOW_THRESHOLD_BASE, -s)`;
it is a parameter because `OVERFLOW_THRESHOLD_BASE` is defined outside src/.
Returns the tree and the final `rangeSize`.  The fuel only guards
termination; `rangeSize` doubles every step, so `labelsNumber + 1` units
always suffice to reproduce the loop exactly. -/
def relabelLoop (dlt : Nat → Nat → Bool) (t : VersionTree)
    (firstLabel secondLabel : Nat) : Nat → Nat → VersionTree × Nat
  | rangeSize, 0 => (t, rangeSize)
  | rangeSize, fuel + 1 =>
    if rangeSize ≤ t.labelsNumber then
      if firstLabel / rangeSize = secondLabel / rangeSize then
        let rangeStart := rangeSize * (firstLabel / rangeSize)
        let rangeEnd := rangeSize * (firstLabel / rangeSize + 1)
        let occupied := t.rangeOccupied rangeStart rangeEnd
        if dlt occupied rangeSize then (t.relabelRange rangeStart rangeEnd, rangeSize)
        else relabelLoop dlt t firstLabel secondLabel (rangeSize * 2) fuel
      else relabelLoop dlt t firstLabel secondLabel (rangeSize * 2) fuel
    else (t, rangeSize)

/-- `VersionTree::_relabel`: search the windows, then grow if the final
`rangeSize` reached `_labelsNumber` (note the source also grows after a
successful window relabel whenever that window was the whole space). -/
def VersionTree.relabel (dlt : Nat → Nat → Bool) (t : VersionTree)
    (firstLabel secondLabel : Nat) : VersionTree :=
  let p := relabelLoop dlt t firstLabel secondLabel 2 (t.labelsNumber + 1)
  if p.1.labelsNumber ≤ p.2 then p.1.relabelAll else p.1

/-- Label assignment at the end of `VersionTree::_insert`:
`label = prevLabel + (nextLabel - prevLabel + 1) / 2` in `size_t`
arithmetic, then update both maps. -/
def VersionTree.assignLabel (t : VersionTree) (version : Int) (pl nl : Nat) :
    VersionTree :=
  let label := (pl + (sub64 nl pl + 1) / 2) % U64
  { t with
    labelToVersion := t.labelToVersion.set label version
    versionToLabel := mapSet t.versionToLabel version label }

/-- `VersionTree::_insert`: insert `version` right after the event at
`prevIdx` and give it a label, relabelling first if there is no gap.
Returns the updated tree and the position of the new event.  `none` models
a thrown lookup failure.  When the previous event is the last one the
source reads the label of `*end()` (undefined behaviour) before patching
`nextLabel` to `_labelsNumber - 1`; the model uses the patched value (that
situation is unreachable through `insert`, because the `NONE_VERSION`
sentinel always terminates the event list). -/
def VersionTree.insertEvent (dlt : Nat → Nat → Bool) (t : VersionTree)
    (version : Int) (prevIdx : Nat) : Option (VersionTree × Nat) :=
  match vecGet? t.events prevIdx with
  | none => none
  | some prevV =>
    match mapGet? t.versionToLabel prevV with
    | none => none
    | some prevLabel =>
      let hasNext := prevIdx + 1 < t.events.length
      let nextV := (vecGet? t.events (prevIdx + 1)).getD NONE_VERSION
      match (if hasNext then mapGet? t.versionToLabel nextV
             else some (t.labelsNumber - 1)) with
      | none => none
      | some nextLabel =>
        let t1 := { t with events := listInsertAt t.events (prevIdx + 1) version }
        if sub64 nextLabel prevLabel < 2 then
          let t2 := t1.relabel dlt prevLabel nextLabel
          match mapGet? t2.versionToLabel prevV with
          | none => none
          | some prevLabel2 =>
            match (if hasNext then mapGet? t2.versionToLabel nextV
                   else some (t2.labelsNumber - 1)) with
            | none => none
            | some nextLabel2 =>
              some (t2.assignLabel version prevLabel2 nextLabel2, prevIdx + 1)
        else
          some (t1.assignLabel version prevLabel nextLabel, prevIdx + 1)

/-- Index of the first event holding `version` (the linear scan in
`VersionTree::insert`). -/
def findEventIdx (version : Int) : List Int → Nat → Option Nat
  | [], _ => none
  | v :: rest, i => if v = version then some i else findEventIdx version rest (i + 1)

/-- `VersionTree::insert`: insert `version` as a child of `parentVersion`
(open event right after the parent's open event, close event right after
that).  `none` models the thrown `std::out_of_range`. -/
def VersionTree.insert (dlt : Nat → Nat → Bool) (t : VersionTree)
    (version parentVersion : Int) : Option VersionTree :=
  if t.events = [] then none
  else
    match findEventIdx parentVersion t.events 0 with
    | none => none
    | some i =>
      match t.insertEvent dlt version i with
      | none => none
      | some (t1, pos) =>
        match t1.insertEvent dlt (-version) pos with
        | none => none
        | some (t2, _) => some t2

/-- `VersionTree::order`: `label(lv) <= label(rv) && label(-rv) <= label(-lv)`
with C++ short-circuit evaluation; `none` models a thrown lookup failure. -/
def VersionTree.order (t : VersionTree) (lv rv : Int) : Option Bool :=
  match mapGet? t.versionToLabel lv, mapGet? t.versionToLabel rv with
  | some a, some b =>
    if a ≤ b then
      match mapGet? t.versionToLabel (-rv), mapGet? t.versionToLabel (-lv) with
      | some c, some d => some (decide (c ≤ d))
      | _, _ => none
    else some false
  | _, _ => none

/-- `VersionTree::empty`. -/
def VersionTree.empty (t : VersionTree) : Bool := t.events.length == 2

/-- `VersionTree::size`. -/
def VersionTree.size (t : VersionTree) : Nat := t.events.length / 2

/-- `VersionTree::_init`: push the root's open event and the sentinel and
register both mappings.  `_labelsNumber` and the remaining slots of the two
maps are left as they are. -/
def VersionTree.initFill (t : VersionTree) : VersionTree :=
  { events := t.events ++ [0, NONE_VERSION]
    labelsNumber := t.labelsNumber
    labelToVersion := (t.labelToVersion.set 0 0).set (t.labelsNumber - 1) NONE_VERSION
    versionToLabel := mapSet (mapSet t.versionToLabel 0 0) NONE_VERSION (t.labelsNumber - 1) }

/-- `VersionTree::clear`: clear the event list and re-run `_init` (the
label space and the two maps keep their current contents otherwise). -/
def VersionTree.clear (t : VersionTree) : VersionTree :=
  VersionTree.initFill { t with events := [] }

/-- The default constructor: `_labelsNumber = 2`, a label table of two
`NONE_VERSION` slots, then `_init`. -/
def freshVT : VersionTree :=
  VersionTree.initFill
    { events := []
      labelsNumber := 2
      labelToVersion := [NONE_VERSION, NONE_VERSION]
      versionToLabel := [] }

/-- Containment test used for the C++ `unordered_map` equality. -/
def mapSub (m1 m2 : List (Int × Nat)) : Bool :=
  m1.all (fun p => mapGet? m2 p.1 == some p.2)

/-- Extensional map equality (matches `unordered_map::operator==` because
`mapSet` keeps keys unique). -/
def mapBeq (m1 m2 : List (Int × Nat)) : Bool :=
  mapSub m1 m2 && mapSub m2 m1

/-- `VersionTree::operator==`: events, label-space size, label table and
reverse map all equal. -/
def VersionTree.beq (a b : VersionTree) : Bool :=
  a.events == b.events && a.labelsNumber == b.labelsNumber &&
    a.labelToVersion == b.labelToVersion && mapBeq a.versionToLabel b.versionToLabel

/-- Modelled from the spec: `VersionTree::OVERFLOW_THRESHOLD_BASE` is
declared in src/src/version_tree.h but defined outside src/.  The spec
(sections 4.2 and 9) fixes `T` in (1, 2) and suggests the literature value
`T = 1.3`, so the density comparison `occupied / size < T^(-size)` becomes
the exact rational test `occupied * 13^size < size * 10^size`. -/
def densLT13 (occupied rangeSize : Nat) : Bool :=
  occupied * 13 ^ rangeSize < rangeSize * 10 ^ rangeSize

/-- A label table whose window `[0, 4)` holds the two occupants 1 and 2
(the state a colliding pair of labels produces when a size-4 window passes
the density test). -/
def relabelWindowState : VersionTree :=
  ⟨[0, 1, -1, NONE_VERSION], 4,
   [1, 2, NONE_VERSION, NONE_VERSION],
   [(1, 0), (2, 1), (NONE_VERSION, 3)]⟩

/-- The scenario-C insertion sequence: Insert(1, parent 0),
Insert(2, parent 1), Insert(3, parent 0) into a fresh tree. -/
def vtScenC : Option VersionTree :=
  ((freshVT.insert densLT13 1 0).bind (fun a => a.insert densLT13 2 1)).bind
    (fun b => b.insert densLT13 3 0)

/-! ## PersistentList (src/src/persistent_list.hpp)

Nodes live in a `store` (address = list index, allocation appends); a
`shared_ptr<Node>` is an `Option Nat` (`none` = null).  An iterator is its
`_cur` pointer, i.e. an `Option Nat`.  A version descriptor is a root
pointer plus a size. -/

structure PNode (α : Type) where
  value : α
  next : Option Nat
  deriving DecidableEq

structure PVersion where
  root : Option Nat
  size : Nat
  deriving DecidableEq

structure PersistentList (α : Type) where
  store : List (PNode α)
  versions : List PVersion
  deriving DecidableEq

/-- Failure modes: `outOfRange` is a thrown `std::out_of_range`; `ub` is
undefined behaviour the source actually performs (out-of-bounds
`operator[]` on the version vector, null-pointer dereference); `noFuel`
marks a traversal that would not terminate in C++ (possible only in states
the public interface cannot produce). -/
inductive PErr where
  | outOfRange
  | ub
  | noFuel
  deriving DecidableEq

inductive Res (β : Type) where
  | ok (val : β)
  | err (e : PErr)
  deriving DecidableEq

/-- The default constructor: one empty version. -/
def freshPL (α : Type) : PersistentList α := ⟨[], [⟨none, 0⟩]⟩

/-- `PersistentList::versionsNumber`. -/
def PersistentList.versionsNumber (l : PersistentList α) : Nat := l.versions.length

/-- `PersistentList::begin(v)`: reads `_versions[srcVersion].root` without a
bounds check (`noexcept`); out of bounds this is undefined behaviour, which
the model collapses to the null iterator. -/
def PersistentList.begin (l : PersistentList α) (srcVersion : Nat) : Option Nat :=
  match vecGet? l.versions srcVersion with
  | some d => d.root
  | none => none

/-- `PersistentList::size(v)` (same unchecked access). -/
def PersistentList.sizeAt (l : PersistentList α) (srcVersion : Nat) : Nat :=
  match vecGet? l.versions srcVersion with
  | some d => d.size
  | none => 0

/-- `ListIterator::operator++`: null-safe; a dangling address (impossible
through `shared_ptr`) also maps to the null iterator. -/
def itNext (store : List (PNode α)) : Option Nat → Option Nat
  | none => none
  | some a =>
    match vecGet? store a with
    | some nd => nd.next
    | none => none

/-- Overwrite the `next` field of the node at address `p` (the model of
`p->next = x`; no-op out of bounds, which never happens on the addresses
the operations touch). -/
def setNext {α : Type} : List (PNode α) → Nat → Option Nat → List (PNode α)
  | [], _, _ => []
  | nd :: rest, 0, nx => ⟨nd.value, nx⟩ :: rest
  | nd :: rest, p + 1, nx => nd :: setNext rest p nx

/-- The prefix-copying loop shared verbatim by `PersistentList::insert`
(general case) and `PersistentList::erase` (general case):

    while (curOldIt != pos) {
      copyCur = make_shared<Node>(*curOldIt);         // next = null
      if (curOldIt == begin(srcVersion)) copyRoot = copyCur;
      if (prevNew) { prevNew->next = copyCur; prevNew = copyCur; }
      else prevNew = copyCur;
      ++curOldIt; curOld = curOld->next;
    }

Returns `(store, copyRoot, prevNew, curOld)`.  Dereferencing the null
iterator (`pos` unreachable, chain exhausted) throws `out_of_range`. -/
def copyWalk {α : Type} (pos root : Option Nat) :
    List (PNode α) → Option Nat → Option Nat → Option Nat → Nat →
      Res (List (PNode α) × Option Nat × Option Nat × Option Nat)
  | s, cur, prevNew, copyRoot, 0 => Res.err PErr.noFuel
  | s, cur, prevNew, copyRoot, fuel + 1 =>
    if cur = pos then Res.ok (s, copyRoot, prevNew, cur)
    else
      match cur with
      | none => Res.err PErr.outOfRange
      | some a =>
        match vecGet? s a with
        | none => Res.err PErr.ub
        | some nd =>
          let c := s.length
          let s1 := s ++ [⟨nd.value, none⟩]
          let copyRoot1 := if cur = root then some c else copyRoot
          let s2 := match prevNew with
            | some p => setNext s1 p (some c)
            | none => s1
          copyWalk pos root s2 nd.next (some c) copyRoot1 fuel

/-- `PersistentList::insert(srcVersion, pos, value)`.  Returns the updated
list and the iterator at the new node. -/
def PersistentList.insert (l : PersistentList α) (srcVersion : Nat)
    (pos : Option Nat) (value : α) : Res (PersistentList α × Option Nat) :=
  if pred64 l.versions.length < srcVersion then Res.err PErr.outOfRange
  else
    let n0 := l.store.length
    let s1 := l.store ++ [⟨value, none⟩]
    match vecGet? l.versions srcVersion with
    | none => Res.err PErr.ub
    | some d =>
      match d.root with
      | none =>
        Res.ok (⟨s1, l.versions ++ [⟨some n0, (d.size + 1) % U64⟩]⟩, some n0)
      | some r =>
        if pos = some r then
          Res.ok (⟨setNext s1 n0 (some r),
                   l.versions ++ [⟨some n0, (d.size + 1) % U64⟩]⟩, some n0)
        else
          match copyWalk pos (some r) s1 (some r) none none (l.store.length + 1) with
          | Res.err e => Res.err e
          | Res.ok (s2, copyRoot, prevNew, curOld) =>
            match prevNew with
            | none => Res.err PErr.ub
            | some p =>
              Res.ok (⟨setNext (setNext s2 p (some n0)) n0 curOld,
                       l.versions ++ [⟨copyRoot, (d.size + 1) % U64⟩]⟩, some n0)

/-- `PersistentList::erase(srcVersion, pos)`.  Returns the updated list and
the iterator following the removed node. -/
def PersistentList.erase (l : PersistentList α) (srcVersion : Nat)
    (pos : Option Nat) : Res (PersistentList α × Option Nat) :=
  if pred64 l.versions.length < srcVersion then Res.err PErr.outOfRange
  else
    match vecGet? l.versions srcVersion with
    | none => Res.err PErr.ub
    | some d =>
      match d.root with
      | none => Res.ok (l, none)
      | some r =>
        if pos = none then Res.ok (l, none)
        else if pos = some r then
          match vecGet? l.store r with
          | none => Res.err PErr.ub
          | some nd =>
            Res.ok (⟨l.store, l.versions ++ [⟨nd.next, pred64 d.size⟩]⟩, nd.next)
        else
          match copyWalk pos (some r) l.store (some r) none none (l.store.length + 1) with
          | Res.err e => Res.err e
          | Res.ok (s2, copyRoot, curNew, curOld) =>
            match curNew, curOld with
            | some p, some a =>
              match vecGet? s2 a with
              | none => Res.err PErr.ub
              | some posNode =>
                Res.ok (⟨setNext s2 p posNode.next,
                         l.versions ++ [⟨copyRoot, pred64 d.size⟩]⟩, posNode.next)
            | _, _ => Res.err PErr.ub

/-- `PersistentList::push_back`: `insert(srcVersion, end(), value)`. -/
def PersistentList.push_back (l : PersistentList α) (srcVersion : Nat)
    (value : α) : Res (PersistentList α) :=
  match l.insert srcVersion none value with
  | Res.ok p => Res.ok p.1
  | Res.err e => Res.err e

/-- `PersistentList::push_front`: `insert(srcVersion, begin(srcVersion), value)`.
`begin` performs its unchecked read before `insert` checks the version, so
an unregistered id is undefined behaviour here. -/
def PersistentList.push_front (l : PersistentList α) (srcVersion : Nat)
    (value : α) : Res (PersistentList α) :=
  match vecGet? l.versions srcVersion with
  | none => Res.err PErr.ub
  | some d =>
    match l.insert srcVersion d.root value with
    | Res.ok p => Res.ok p.1
    | Res.err e => Res.err e

/-- `PersistentList::pop_front`: `erase(srcVersion, begin(srcVersion))`
(same unchecked `begin`). -/
def PersistentList.pop_front (l : PersistentList α) (srcVersion : Nat) :
    Res (PersistentList α) :=
  match vecGet? l.versions srcVersion with
  | none => Res.err PErr.ub
  | some d =>
    match l.erase srcVersion d.root with
    | Res.ok p => Res.ok p.1
    | Res.err e => Res.err e

/-- The copying loop of `PersistentList::pop_back`:

    while (curOld->next) {
      copyCur = make_shared<Node>(curOld->value);
      if (curNew) { curNew->next = copyCur; curNew = copyCur; }
      else curNew = copyCur;
      if (curOld == root) copyRoot = copyCur;
      curOld = curOld->next;
    }

Returns `(store, copyRoot)`. -/
def popBackWalk {α : Type} (root : Nat) :
    List (PNode α) → Nat → Option Nat → Option Nat → Nat →
      Res (List (PNode α) × Option Nat)
  | s, cur, curNew, copyRoot, 0 => Res.err PErr.noFuel
  | s, cur, curNew, copyRoot, fuel + 1 =>
    match vecGet? s cur with
    | none => Res.err PErr.ub
    | some nd =>
      match nd.next with
      | none => Res.ok (s, copyRoot)
      | some nx =>
        let c := s.length
        let s1 := s ++ [⟨nd.value, none⟩]
        let s2 := match curNew with
          | some p => setNext s1 p (some c)
          | none => s1
        let copyRoot1 := if cur = root then some c else copyRoot
        popBackWalk root s2 nx (some c) copyRoot1 fuel

/-- `PersistentList::pop_back(srcVersion)`: no bounds check and no
emptiness check — an unregistered id is an out-of-bounds read and an empty
version dereferences the null `root` (both undefined behaviour); otherwise
it copies all but the last node and appends the new version. -/
def PersistentList.pop_back (l : PersistentList α) (srcVersion : Nat) :
    Res (PersistentList α) :=
  match vecGet? l.versions srcVersion with
  | none => Res.err PErr.ub
  | some d =>
    match d.root with
    | none => Res.err PErr.ub
    | some r =>
      match popBackWalk r l.store r none none (l.store.length + 1) with
      | Res.err e => Res.err e
      | Res.ok (s2, copyRoot) =>
        Res.ok ⟨s2, l.versions ++ [⟨copyRoot, pred64 d.size⟩]⟩

/-- The six mutating operations, packaged so that one statement can
quantify over all of them. -/
inductive Op (α : Type) where
  | ins (srcVersion : Nat) (pos : Option Nat) (value : α)
  | ers (srcVersion : Nat) (pos : Option Nat)
  | pushF (srcVersion : Nat) (value : α)
  | popF (srcVersion : Nat)
  | pushB (srcVersion : Nat) (value : α)
  | popB (srcVersion : Nat)
  deriving DecidableEq

/-- Run a mutating operation, keeping only the resulting list. -/
def applyOp (l : PersistentList α) : Op α → Res (PersistentList α)
  | Op.ins v pos x =>
    match l.insert v pos x with
    | Res.ok p => Res.ok p.1
    | Res.err e => Res.err e
  | Op.ers v pos =>
    match l.erase v pos with
    | Res.ok p => Res.ok p.1
    | Res.err e => Res.err e
  | Op.pushF v x => l.push_front v x
  | Op.popF v => l.pop_front v
  | Op.pushB v x => l.push_back v x
  | Op.popB v => l.pop_back v

/-- The chain of addresses observed from a root pointer: exactly the
addresses an iterator visits from `begin` until it equals `end()`. -/
inductive isChain {α : Type} (s : List (PNode α)) : Option Nat → List Nat → Prop
  | nil : isChain s none []
  | cons {a : Nat} {nd : PNode α} {rest : List Nat} :
      vecGet? s a = some nd → isChain s nd.next rest → isChain s (some a) (a :: rest)

/-- The element sequence read along a chain of addresses. -/
def elemsOfChain (s : List (PNode α)) (c : List Nat) : List (Option α) :=
  c.map (fun a => Option.map PNode.value (vecGet? s a))

/-- The two mutators that can legitimately return without appending a
version: `erase`/`pop_front` when the source version is empty or the
position is `end()`. -/
def noopCase {α : Type} (l : PersistentList α) : Op α → Bool
  | Op.ers v pos =>
    (match vecGet? l.versions v with
     | some d => d.root.isNone || pos.isNone
     | none => false)
  | Op.popF v =>
    (match vecGet? l.versions v with
     | some d => d.root.isNone
     | none => false)
  | _ => false

/-- The result of `push_back 0 5` on a fresh list, used by witnesses. -/
def pbResult : PersistentList Int := ⟨[⟨5, none⟩], [⟨none, 0⟩, ⟨some 0, 1⟩]⟩

/-- The store only ever grows: entries below the old length are never
touched by any operation (path copying allocates, it does not mutate). -/
def StoreExt {α : Type} (s s2 : List (PNode α)) : Prop :=
  s.length ≤ s2.length ∧ ∀ i, i < s.length → vecGet? s2 i = vecGet? s i

/-! ## Store lemmas -/

theorem vecGet_lt {β : Type} {s : List β} {i : Nat} {x : β}
    (h : vecGet? s i = some x) : i < s.length := by
  induction s generalizing i with
  | nil => simp [vecGet?] at h
  | cons hd tl ih =>
    cases i with
    | zero => simp
    | succ n =>
      simp only [vecGet?] at h
      have := ih h
      simp only [List.length_cons]
      omega

theorem vecGet_exists {β : Type} {s : List β} {i : Nat}
    (h : i < s.length) : ∃ x, vecGet? s i = some x := by
  induction s generalizing i with
  | nil => simp at h
  | cons hd tl ih =>
    cases i with
    | zero => exact ⟨hd, rfl⟩
    | succ n =>
      simp only [List.length_cons] at h
      exact ih (by omega)

theorem vecGet_append_lt {β : Type} {xs : List β} (ys : List β) {i : Nat}
    (h : i < xs.length) : vecGet? (xs ++ ys) i = vecGet? xs i := by
  induction xs generalizing i with
  | nil => simp at h
  | cons hd tl ih =>
    cases i with
    | zero => rfl
    | succ n =>
      simp only [List.length_cons] at h
      simpa [vecGet?] using ih (by omega)

theorem vecGet_append_at {β : Type} (xs : List β) (y : β) (ys : List β) :
    vecGet? (xs ++ y :: ys) xs.length = some y := by
  induction xs with
  | nil => rfl
  | cons hd tl ih => simpa [vecGet?] using ih

theorem length_setNext {α : Type} (s : List (PNode α)) (p : Nat) (nx : Option Nat) :
    (setNext s p nx).length = s.length := by
  induction s generalizing p with
  | nil => rfl
  | cons hd tl ih =>
    cases p with
    | zero => rfl
    | succ n => simpa [setNext] using ih n

theorem vecGet_setNext_ne {α : Type} {s : List (PNode α)} {p i : Nat}
    (nx : Option Nat) (h : i ≠ p) :
    vecGet? (setNext s p nx) i = vecGet? s i := by
  induction s generalizing p i with
  | nil => rfl
  | cons hd tl ih =>
    cases p with
    | zero =>
      cases i with
      | zero => omega
      | succ j => rfl
    | succ q =>
      cases i with
      | zero => rfl
      | succ j => simpa [setNext, vecGet?] using ih (by omega)

theorem vecGet_setNext_at {α : Type} {s : List (PNode α)} {p : Nat}
    {nd : PNode α} (nx : Option Nat) (h : vecGet? s p = some nd) :
    vecGet? (setNext s p nx) p = some ⟨nd.value, nx⟩ := by
  induction s generalizing p with
  | nil => simp [vecGet?] at h
  | cons hd tl ih =>
    cases p with
    | zero =>
      simp only [vecGet?] at h
      cases h
      rfl
    | succ q => simpa [setNext, vecGet?] using ih h

theorem storeExt_refl {α : Type} (s : List (PNode α)) : StoreExt s s :=
  ⟨Nat.le_refl _, fun _ _ => rfl⟩

theorem storeExt_trans {α : Type} {s1 s2 s3 : List (PNode α)}
    (h1 : StoreExt s1 s2) (h2 : StoreExt s2 s3) : StoreExt s1 s3 :=
  ⟨Nat.le_trans h1.1 h2.1, fun i hi => by
    rw [h2.2 i (Nat.lt_of_lt_of_le hi h1.1), h1.2 i hi]⟩

theorem storeExt_append {α : Type} (s t : List (PNode α)) : StoreExt s (s ++ t) :=
  ⟨by simp, fun i hi => vecGet_append_lt t hi⟩

theorem storeExt_setNext {α : Type} {s s2 : List (PNode α)} {p : Nat}
    (nx : Option Nat) (h : StoreExt s s2) (hp : s.length ≤ p) :
    StoreExt s (setNext s2 p nx) :=
  ⟨by rw [length_setNext]; exact h.1, fun i hi => by
    rw [vecGet_setNext_ne nx (by omega), h.2 i hi]⟩

theorem isChain_mono {α : Type} {s s2 : List (PNode α)} {r : Option Nat}
    {c : List Nat} (hext : StoreExt s s2) (h : isChain s r c) :
    isChain s2 r c := by
  induction h with
  | nil => exact isChain.nil
  | cons hget hrest ih =>
    exact isChain.cons (by rw [hext.2 _ (vecGet_lt hget)]; exact hget) ih

theorem elemsOfChain_mono {α : Type} {s s2 : List (PNode α)} {r : Option Nat}
    {c : List Nat} (hext : StoreExt s s2) (h : isChain s r c) :
    elemsOfChain s2 c = elemsOfChain s c := by
  induction h with
  | nil => rfl
  | cons hget hrest ih =>
    simp only [elemsOfChain, List.map_cons] at ih ⊢
    rw [hext.2 _ (vecGet_lt hget)]
    exact congrArg _ ih

/-- The copy loop only allocates new nodes and patches `next` pointers of
nodes it allocated itself: the original store is preserved, and the running
`prevNew` pointer always refers to a freshly allocated node. -/
theorem copyWalk_ext {α : Type} {pos root : Option Nat} :
    ∀ (fuel : Nat) (s0 s : List (PNode α)) (cur prevNew copyRoot : Option Nat)
      (out : List (PNode α) × Option Nat × Option Nat × Option Nat),
      StoreExt s0 s → (∀ p, prevNew = some p → s0.length ≤ p) →
      copyWalk pos root s cur prevNew copyRoot fuel = Res.ok out →
      StoreExt s0 out.1 ∧ (∀ p, out.2.2.1 = some p → s0.length ≤ p) := by
  intro fuel
  induction fuel with
  | zero =>
    intro s0 s cur prevNew copyRoot out hext hp hrun
    simp [copyWalk] at hrun
  | succ n ih =>
    intro s0 s cur prevNew copyRoot out hext hp hrun
    simp only [copyWalk] at hrun
    split at hrun
    · cases hrun
      exact ⟨hext, hp⟩
    · cases cur with
      | none => simp at hrun
      | some a =>
        simp only [] at hrun
        cases hv : vecGet? s a with
        | none =>
          rw [hv] at hrun
          simp at hrun
        | some nd =>
          rw [hv] at hrun
          simp only [] at hrun
          cases prevNew with
          | none =>
            simp only [] at hrun
            refine ih s0 _ nd.next (some s.length) _ out
              (storeExt_trans hext (storeExt_append _ _)) ?_ hrun
            intro p hps
            cases hps
            exact hext.1
          | some p0 =>
            simp only [] at hrun
            refine ih s0 _ nd.next (some s.length) _ out
              (storeExt_setNext _ (storeExt_trans hext (storeExt_append _ _))
                (hp p0 rfl)) ?_ hrun
            intro p hps
            cases hps
            exact hext.1

/-- Analogue of `copyWalk_ext` for the `pop_back` loop. -/
theorem popBackWalk_ext {α : Type} {root : Nat} :
    ∀ (fuel : Nat) (s0 s : List (PNode α)) (cur : Nat) (curNew copyRoot : Option Nat)
      (out : List (PNode α) × Option Nat),
      StoreExt s0 s → (∀ p, curNew = some p → s0.length ≤ p) →
      popBackWalk root s cur curNew copyRoot fuel = Res.ok out →
      StoreExt s0 out.1 := by
  intro fuel
  induction fuel with
  | zero =>
    intro s0 s cur curNew copyRoot out hext hp hrun
    simp [popBackWalk] at hrun
  | succ n ih =>
    intro s0 s cur curNew copyRoot out hext hp hrun
    simp only [popBackWalk] at hrun
    cases hv : vecGet? s cur with
    | none =>
      rw [hv] at hrun
      simp at hrun
    | some nd =>
      rw [hv] at hrun
      simp only [] at hrun
      cases hnx : nd.next with
      | none =>
        rw [hnx] at hrun
        simp only [] at hrun
        cases hrun
        exact hext
      | some nx =>
        rw [hnx] at hrun
        simp only [] at hrun
        cases curNew with
        | none =>
          simp only [] at hrun
          refine ih s0 _ nx (some s.length) _ out
            (storeExt_trans hext (storeExt_append _ _)) ?_ hrun
          intro p hps
          cases hps
          exact hext.1
        | some p0 =>
          simp only [] at hrun
          refine ih s0 _ nx (some s.length) _ out
            (storeExt_setNext _ (storeExt_trans hext (storeExt_append _ _))
              (hp p0 rfl)) ?_ hrun
          intro p hps
          cases hps
          exact hext.1

/-- A successful `insert` extends the store and appends exactly one version
descriptor. -/
theorem insert_effect {α : Type} {l : PersistentList α} {v : Nat}
    {pos : Option Nat} {x : α} {l2 : PersistentList α} {it : Option Nat}
    (h : l.insert v pos x = Res.ok (l2, it)) :
    StoreExt l.store l2.store ∧ ∃ d, l2.versions = l.versions ++ [d] := by
  unfold PersistentList.insert at h
  split at h
  · simp at h
  · simp only [] at h
    cases hv : vecGet? l.versions v with
    | none => rw [hv] at h; simp at h
    | some d =>
      rw [hv] at h
      simp only [] at h
      cases hr : d.root with
      | none =>
        rw [hr] at h
        simp only [] at h
        cases h
        exact ⟨storeExt_append _ _, _, rfl⟩
      | some r =>
        rw [hr] at h
        simp only [] at h
        split at h
        · cases h
          exact ⟨storeExt_setNext _ (storeExt_append _ _) (Nat.le_refl _), _, rfl⟩
        · cases hw : copyWalk pos (some r) (l.store ++ [⟨x, none⟩]) (some r)
              none none (l.store.length + 1) with
          | err e => rw [hw] at h; simp at h
          | ok q =>
            rw [hw] at h
            obtain ⟨s2, copyRoot, prevNew, curOld⟩ := q
            simp only [] at h
            cases prevNew with
            | none => simp at h
            | some p =>
              simp only [] at h
              cases h
              have hcw := copyWalk_ext (l.store.length + 1) l.store _ (some r)
                none none (s2, copyRoot, some p, curOld)
                (storeExt_append _ _) (by intro q hq; cases hq) hw
              refine ⟨?_, _, rfl⟩
              exact storeExt_setNext _
                (storeExt_setNext _ hcw.1 (hcw.2 p rfl)) (Nat.le_refl _)

/-- A successful `erase` extends the store; it appends exactly one
descriptor unless the source version is empty or `pos` is the end iterator,
in which case it returns the list unchanged. -/
theorem eraseOk_cases {α : Type} {l : PersistentList α} {v : Nat}
    {pos : Option Nat} {l2 : PersistentList α} {it : Option Nat}
    (h : l.erase v pos = Res.ok (l2, it)) :
    StoreExt l.store l2.store ∧
      ∃ d, vecGet? l.versions v = some d ∧
        (((d.root = none ∨ pos = none) ∧ l2 = l) ∨
          ((∃ r, d.root = some r) ∧ pos ≠ none ∧
            ∃ dd, l2.versions = l.versions ++ [dd])) := by
  unfold PersistentList.erase at h
  split at h
  · simp at h
  · cases hv : vecGet? l.versions v with
    | none => rw [hv] at h; simp at h
    | some d =>
      rw [hv] at h
      simp only [] at h
      cases hr : d.root with
      | none =>
        rw [hr] at h
        simp only [] at h
        cases h
        exact ⟨storeExt_refl _, d, rfl, Or.inl ⟨Or.inl hr, rfl⟩⟩
      | some r =>
        rw [hr] at h
        simp only [] at h
        split at h
        · cases h
          rename_i hpos
          exact ⟨storeExt_refl _, d, rfl, Or.inl ⟨Or.inr hpos, rfl⟩⟩
        · rename_i hpos
          split at h
          · rename_i hpr
            cases hn : vecGet? l.store r with
            | none => rw [hn] at h; simp at h
            | some nd =>
              rw [hn] at h
              simp only [] at h
              cases h
              exact ⟨storeExt_refl _, d, rfl,
                Or.inr ⟨⟨r, hr⟩, hpos, _, rfl⟩⟩
          · cases hw : copyWalk pos (some r) l.store (some r) none none
                (l.store.length + 1) with
            | err e => rw [hw] at h; simp at h
            | ok q =>
              rw [hw] at h
              obtain ⟨s2, copyRoot, curNew, curOld⟩ := q
              simp only [] at h
              cases curNew with
              | none => simp at h
              | some p =>
                cases curOld with
                | none => simp at h
                | some a =>
                  simp only [] at h
                  cases hn : vecGet? s2 a with
                  | none => rw [hn] at h; simp at h
                  | some posNode =>
                    rw [hn] at h
                    simp only [] at h
                    cases h
                    have hcw := copyWalk_ext (l.store.length + 1) l.store _
                      (some r) none none (s2, copyRoot, some p, some a)
                      (storeExt_refl _) (by intro q hq; cases hq) hw
                    exact ⟨storeExt_setNext _ hcw.1 (hcw.2 p rfl), d, rfl,
                      Or.inr ⟨⟨r, hr⟩, hpos, _, rfl⟩⟩

/-- A successful `pop_back` extends the store and appends exactly one
descriptor. -/
theorem popBack_effect {α : Type} {l : PersistentList α} {v : Nat}
    {l2 : PersistentList α} (h : l.pop_back v = Res.ok l2) :
    StoreExt l.store l2.store ∧ ∃ d, l2.versions = l.versions ++ [d] := by
  unfold PersistentList.pop_back at h
  cases hv : vecGet? l.versions v with
  | none => rw [hv] at h; simp at h
  | some d =>
    rw [hv] at h
    simp only [] at h
    cases hr : d.root with
    | none => rw [hr] at h; simp at h
    | some r =>
      rw [hr] at h
      simp only [] at h
      cases hw : popBackWalk r l.store r none none (l.store.length + 1) with
      | err e => rw [hw] at h; simp at h
      | ok q =>
        rw [hw] at h
        obtain ⟨s2, copyRoot⟩ := q
        simp only [] at h
        cases h
        exact ⟨popBackWalk_ext (l.store.length + 1) l.store _ r none none
          (s2, copyRoot) (storeExt_refl _) (by intro q hq; cases hq) hw, _, rfl⟩

/-- Master effect lemma: every successful mutating operation leaves the old
store region untouched, and either appends exactly one version descriptor
(the normal case) or — only for the `erase`/`pop_front` no-op case —
returns the list unchanged. -/
theorem op_effect {α : Type} {l l2 : PersistentList α} {op : Op α}
    (h : applyOp l op = Res.ok l2) :
    StoreExt l.store l2.store ∧
      ((noopCase l op = false ∧ ∃ d, l2.versions = l.versions ++ [d]) ∨
        (noopCase l op = true ∧ l2 = l)) := by
  cases op with
  | ins v pos x =>
    unfold applyOp at h
    simp only [] at h
    cases hi : l.insert v pos x with
    | err e => rw [hi] at h; simp at h
    | ok p =>
      rw [hi] at h
      simp only [] at h
      cases h
      obtain ⟨l2x, itx⟩ := p
      obtain ⟨hext, d, hd⟩ := insert_effect hi
      exact ⟨hext, Or.inl ⟨rfl, d, hd⟩⟩
  | ers v pos =>
    unfold applyOp at h
    simp only [] at h
    cases hi : l.erase v pos with
    | err e => rw [hi] at h; simp at h
    | ok p =>
      rw [hi] at h
      simp only [] at h
      cases h
      obtain ⟨l2x, itx⟩ := p
      obtain ⟨hext, d, hv, hcases⟩ := eraseOk_cases hi
      refine ⟨hext, ?_⟩
      cases hcases with
      | inl hno =>
        refine Or.inr ⟨?_, hno.2⟩
        simp only [noopCase, hv]
        cases hno.1 with
        | inl hroot => simp [hroot]
        | inr hpos => simp [hpos]
      | inr happ =>
        obtain ⟨⟨r, hr⟩, hpos, dd, hdd⟩ := happ
        refine Or.inl ⟨?_, dd, hdd⟩
        simp only [noopCase, hv, hr]
        cases pos with
        | none => exact absurd rfl hpos
        | some a => simp
  | pushF v x =>
    unfold applyOp PersistentList.push_front at h
    simp only [] at h
    cases hv : vecGet? l.versions v with
    | none => rw [hv] at h; simp at h
    | some d =>
      rw [hv] at h
      simp only [] at h
      cases hi : l.insert v d.root x with
      | err e => rw [hi] at h; simp at h
      | ok p =>
        rw [hi] at h
        simp only [] at h
        cases h
        obtain ⟨l2x, itx⟩ := p
        obtain ⟨hext, dd, hdd⟩ := insert_effect hi
        exact ⟨hext, Or.inl ⟨rfl, dd, hdd⟩⟩
  | popF v =>
    unfold applyOp PersistentList.pop_front at h
    simp only [] at h
    cases hv : vecGet? l.versions v with
    | none => rw [hv] at h; simp at h
    | some d =>
      rw [hv] at h
      simp only [] at h
      cases hi : l.erase v d.root with
      | err e => rw [hi] at h; simp at h
      | ok p =>
        rw [hi] at h
        simp only [] at h
        cases h
        obtain ⟨l2x, itx⟩ := p
        obtain ⟨hext, d2, hv2, hcases⟩ := eraseOk_cases hi
        rw [hv] at hv2
        cases hv2
        refine ⟨hext, ?_⟩
        cases hcases with
        | inl hno =>
          have hroot : d.root = none := by
            cases hno.1 with
            | inl hroot => exact hroot
            | inr hpos => exact hpos
          refine Or.inr ⟨?_, hno.2⟩
          simp [noopCase, hv, hroot]
        | inr happ =>
          obtain ⟨⟨r, hr⟩, hpos, dd, hdd⟩ := happ
          refine Or.inl ⟨?_, dd, hdd⟩
          simp [noopCase, hv, hr]
  | pushB v x =>
    unfold applyOp PersistentList.push_back at h
    simp only [] at h
    cases hi : l.insert v none x with
    | err e => rw [hi] at h; simp at h
    | ok p =>
      rw [hi] at h
      simp only [] at h
      cases h
      obtain ⟨l2x, itx⟩ := p
      obtain ⟨hext, dd, hdd⟩ := insert_effect hi
      exact ⟨hext, Or.inl ⟨rfl, dd, hdd⟩⟩
  | popB v =>
    unfold applyOp at h
    simp only [] at h
    obtain ⟨hext, dd, hdd⟩ := popBack_effect h
    exact ⟨hext, Or.inl ⟨rfl, dd, hdd⟩⟩

theorem U64_eq : U64 = 18446744073709551616 := by norm_num [U64]

theorem begin_eq {α : Type} {l : PersistentList α} {v : Nat} {d : PVersion}
    (h : vecGet? l.versions v = some d) : l.begin v = d.root := by
  unfold PersistentList.begin
  rw [h]

theorem sizeAt_eq {α : Type} {l : PersistentList α} {v : Nat} {d : PVersion}
    (h : vecGet? l.versions v = some d) : l.sizeAt v = d.size := by
  unfold PersistentList.sizeAt
  rw [h]

/-- Claim C2.  Full persistence: any successful mutating operation leaves
every previously registered version observationally unchanged — same head
iterator, same size, and the chain of nodes it denotes still exists
unaltered in the store, yielding the same element sequence. -/
theorem c2_persistence {α : Type} {l l2 : PersistentList α} {op : Op α}
    (v : Nat) (c : List Nat)
    (h : applyOp l op = Res.ok l2) (hv : v < l.versions.length)
    (hc : isChain l.store (l.begin v) c) :
    l2.begin v = l.begin v ∧ l2.sizeAt v = l.sizeAt v ∧
      isChain l2.store (l.begin v) c ∧
      elemsOfChain l2.store c = elemsOfChain l.store c := by
  obtain ⟨hext, hcases⟩ := op_effect h
  have hver : ∃ δ, l2.versions = l.versions ++ δ := by
    cases hcases with
    | inl happ =>
      obtain ⟨_, d, hd⟩ := happ
      exact ⟨[d], hd⟩
    | inr hno => exact ⟨[], by rw [hno.2]; simp⟩
  obtain ⟨δ, hδ⟩ := hver
  have hlook : vecGet? l2.versions v = vecGet? l.versions v := by
    rw [hδ]
    exact vecGet_append_lt δ hv
  refine ⟨?_, ?_, isChain_mono hext hc, elemsOfChain_mono hext hc⟩
  · unfold PersistentList.begin
    rw [hlook]
  · unfold PersistentList.sizeAt
    rw [hlook]

/-- Witness for `c2_persistence` at a concrete input. -/
theorem c2_persistence_witness :
    pbResult.begin 0 = (freshPL Int).begin 0 ∧
      pbResult.sizeAt 0 = (freshPL Int).sizeAt 0 ∧
      isChain pbResult.store ((freshPL Int).begin 0) [] ∧
      elemsOfChain pbResult.store [] = elemsOfChain (freshPL Int).store [] :=
  @c2_persistence Int (freshPL Int) pbResult (Op.pushB 0 5) 0 []
    (by decide) (by decide) isChain.nil

/-- Claim C6, counterexample.  `erase` on the registered (empty) version 0
of a fresh list with the end iterator succeeds, returns the list unchanged
and appends no version descriptor: `versions()` stays 1 instead of
strictly increasing by 1. -/
theorem c6_erase_end_no_append :
    (freshPL Int).erase 0 none = Res.ok (freshPL Int, none) ∧
      (freshPL Int).versionsNumber = 1 := by
  decide

/-- Claim C6, amended.  Every successful mutating operation appends exactly
one version descriptor — found at index `versions() - 1` afterwards —
except for `erase`/`pop_front` applied to an empty source version or the
end iterator, which return the structure unchanged. -/
theorem c6_mutators_append {α : Type} {l l2 : PersistentList α} {op : Op α}
    (h : applyOp l op = Res.ok l2) :
    (noopCase l op = false →
      ∃ d, l2.versions = l.versions ++ [d] ∧
        l2.versionsNumber = l.versionsNumber + 1 ∧
        vecGet? l2.versions (l2.versionsNumber - 1) = some d) ∧
    (noopCase l op = true → l2 = l) := by
  obtain ⟨hext, hcases⟩ := op_effect h
  cases hcases with
  | inl happ =>
    obtain ⟨hflag, d, hd⟩ := happ
    constructor
    · intro hf
      refine ⟨d, hd, ?_, ?_⟩
      · simp [PersistentList.versionsNumber, hd]
      · have hlen : l2.versionsNumber - 1 = l.versions.length := by
          simp [PersistentList.versionsNumber, hd]
        rw [hlen, hd]
        exact vecGet_append_at _ _ _
    · intro hf
      rw [hflag] at hf
      cases hf
  | inr hno =>
    constructor
    · intro hf
      rw [hno.1] at hf
      cases hf
    · intro hf
      exact hno.2

/-- Witness for `c6_mutators_append` at a concrete input. -/
theorem c6_mutators_append_witness :
    (noopCase (freshPL Int) (Op.pushB 0 5) = false →
      ∃ d, pbResult.versions = (freshPL Int).versions ++ [d] ∧
        pbResult.versionsNumber = (freshPL Int).versionsNumber + 1 ∧
        vecGet? pbResult.versions (pbResult.versionsNumber - 1) = some d) ∧
    (noopCase (freshPL Int) (Op.pushB 0 5) = true → pbResult = freshPL Int) :=
  @c6_mutators_append Int (freshPL Int) pbResult (Op.pushB 0 5) (by decide)

theorem pred64_not_lt {n v : Nat} (hv : v < n) (hn : n ≤ U64) :
    ¬ pred64 n < v := by
  rw [U64_eq] at hn
  simp only [pred64, U64_eq]
  omega

theorem pred64_succ {n : Nat} (h : n < U64) : pred64 (n + 1) = n := by
  rw [U64_eq] at h
  simp only [pred64, U64_eq]
  omega

theorem pred64_succ_mod {n : Nat} (h : n < U64) : pred64 ((n + 1) % U64) = n := by
  rw [U64_eq] at h
  simp only [pred64, U64_eq]
  omega


/-- Claim C9.  `pop_front(push_front(v, x))` round trip: pushing `x` in
front of any registered version and popping the front of the resulting
version yields a version with the same head pointer, the same size and the
same element sequence as `v` (in fact the very same chain of nodes). -/
theorem c9_roundtrip {α : Type} {l : PersistentList α} {v : Nat} (x : α)
    (hv : v < l.versions.length) (hlen : l.versions.length < U64)
    (hsz : l.sizeAt v < U64) :
    ∃ l1 l2, l.push_front v x = Res.ok l1 ∧
      l1.pop_front (l1.versionsNumber - 1) = Res.ok l2 ∧
      l2.begin (l2.versionsNumber - 1) = l.begin v ∧
      l2.sizeAt (l2.versionsNumber - 1) = l.sizeAt v ∧
      StoreExt l.store l2.store ∧
      (∀ c, isChain l.store (l.begin v) c →
        isChain l2.store (l2.begin (l2.versionsNumber - 1)) c ∧
        elemsOfChain l2.store c = elemsOfChain l.store c) := by
  obtain ⟨d, hd⟩ := vecGet_exists hv
  have hsz2 : d.size < U64 := by rw [sizeAt_eq hd] at hsz; exact hsz
  have hrc : ¬ (pred64 l.versions.length < v) :=
    pred64_not_lt hv (Nat.le_of_lt hlen)
  have hrc2 : ¬ (pred64 (l.versions.length + 1) < l.versions.length) := by
    rw [pred64_succ hlen]
    omega
  have hps : pred64 ((d.size + 1) % U64) = d.size := pred64_succ_mod hsz2
  have main : ∀ (S2 : List (PNode α)) (V1 : List PVersion),
      l.push_front v x = Res.ok ⟨S2, V1⟩ →
      PersistentList.pop_front ⟨S2, V1⟩
          ((⟨S2, V1⟩ : PersistentList α).versionsNumber - 1) =
        Res.ok ⟨S2, V1 ++ [⟨d.root, d.size⟩]⟩ →
      StoreExt l.store S2 →
      ∃ l1 l2, l.push_front v x = Res.ok l1 ∧
        l1.pop_front (l1.versionsNumber - 1) = Res.ok l2 ∧
        l2.begin (l2.versionsNumber - 1) = l.begin v ∧
        l2.sizeAt (l2.versionsNumber - 1) = l.sizeAt v ∧
        StoreExt l.store l2.store ∧
        (∀ c, isChain l.store (l.begin v) c →
          isChain l2.store (l2.begin (l2.versionsNumber - 1)) c ∧
          elemsOfChain l2.store c = elemsOfChain l.store c) := by
    intro S2 V1 h1 h2 hext
    refine ⟨_, _, h1, h2, ?_⟩
    have hlook : vecGet? (V1 ++ [(⟨d.root, d.size⟩ : PVersion)]) V1.length =
        some ⟨d.root, d.size⟩ := vecGet_append_at _ _ _
    have hidx : ((⟨S2, V1 ++ [⟨d.root, d.size⟩]⟩ :
        PersistentList α).versionsNumber - 1) = V1.length := by
      simp [PersistentList.versionsNumber]
    have hb : (⟨S2, V1 ++ [⟨d.root, d.size⟩]⟩ : PersistentList α).begin
        ((⟨S2, V1 ++ [⟨d.root, d.size⟩]⟩ :
          PersistentList α).versionsNumber - 1) = d.root := by
      rw [hidx]
      unfold PersistentList.begin
      simp only []
      rw [hlook]
    have hs : (⟨S2, V1 ++ [⟨d.root, d.size⟩]⟩ : PersistentList α).sizeAt
        ((⟨S2, V1 ++ [⟨d.root, d.size⟩]⟩ :
          PersistentList α).versionsNumber - 1) = d.size := by
      rw [hidx]
      unfold PersistentList.sizeAt
      simp only []
      rw [hlook]
    have e1 : (⟨S2, V1 ++ [⟨d.root, d.size⟩]⟩ : PersistentList α).begin
        ((⟨S2, V1 ++ [⟨d.root, d.size⟩]⟩ :
          PersistentList α).versionsNumber - 1) = l.begin v := by
      rw [hb, begin_eq hd]
    have e2 : (⟨S2, V1 ++ [⟨d.root, d.size⟩]⟩ : PersistentList α).sizeAt
        ((⟨S2, V1 ++ [⟨d.root, d.size⟩]⟩ :
          PersistentList α).versionsNumber - 1) = l.sizeAt v := by
      rw [hs, sizeAt_eq hd]
    refine ⟨e1, e2, hext, ?_⟩
    intro c hc
    rw [e1]
    exact ⟨isChain_mono hext hc, elemsOfChain_mono hext hc⟩
  cases hr : d.root with
  | none =>
    have h1 : l.push_front v x =
        Res.ok ⟨l.store ++ [⟨x, none⟩],
          l.versions ++ [⟨some l.store.length, (d.size + 1) % U64⟩]⟩ := by
      simp [PersistentList.push_front, PersistentList.insert, hd, hr, hrc]
    have hd2 : vecGet?
        (l.versions ++ [(⟨some l.store.length, (d.size + 1) % U64⟩ : PVersion)])
        l.versions.length = some ⟨some l.store.length, (d.size + 1) % U64⟩ :=
      vecGet_append_at _ _ _
    have hn0 : vecGet? (l.store ++ [(⟨x, none⟩ : PNode α)]) l.store.length =
        some ⟨x, none⟩ := vecGet_append_at _ _ _
    have h2 : PersistentList.pop_front
        ⟨l.store ++ [⟨x, none⟩],
          l.versions ++ [⟨some l.store.length, (d.size + 1) % U64⟩]⟩
        ((⟨l.store ++ [⟨x, none⟩],
            l.versions ++ [⟨some l.store.length, (d.size + 1) % U64⟩]⟩ :
            PersistentList α).versionsNumber - 1) =
        Res.ok ⟨l.store ++ [⟨x, none⟩],
          (l.versions ++ [⟨some l.store.length, (d.size + 1) % U64⟩]) ++
            [⟨d.root, d.size⟩]⟩ := by
      rw [hr]
      simp [PersistentList.pop_front, PersistentList.versionsNumber,
        PersistentList.erase, hd2, hrc2, hn0, hps]
    exact main _ _ h1 h2 (storeExt_append _ _)
  | some r =>
    have h1 : l.push_front v x =
        Res.ok ⟨setNext (l.store ++ [⟨x, none⟩]) l.store.length (some r),
          l.versions ++ [⟨some l.store.length, (d.size + 1) % U64⟩]⟩ := by
      simp [PersistentList.push_front, PersistentList.insert, hd, hr, hrc]
    have hd2 : vecGet?
        (l.versions ++ [(⟨some l.store.length, (d.size + 1) % U64⟩ : PVersion)])
        l.versions.length = some ⟨some l.store.length, (d.size + 1) % U64⟩ :=
      vecGet_append_at _ _ _
    have hn0 : vecGet?
        (setNext (l.store ++ [(⟨x, none⟩ : PNode α)]) l.store.length (some r))
        l.store.length = some ⟨x, some r⟩ :=
      vecGet_setNext_at _ (vecGet_append_at _ _ _)
    have h2 : PersistentList.pop_front
        ⟨setNext (l.store ++ [⟨x, none⟩]) l.store.length (some r),
          l.versions ++ [⟨some l.store.length, (d.size + 1) % U64⟩]⟩
        ((⟨setNext (l.store ++ [⟨x, none⟩]) l.store.length (some r),
            l.versions ++ [⟨some l.store.length, (d.size + 1) % U64⟩]⟩ :
            PersistentList α).versionsNumber - 1) =
        Res.ok ⟨setNext (l.store ++ [⟨x, none⟩]) l.store.length (some r),
          (l.versions ++ [⟨some l.store.length, (d.size + 1) % U64⟩]) ++
            [⟨d.root, d.size⟩]⟩ := by
      rw [hr]
      simp [PersistentList.pop_front, PersistentList.versionsNumber,
        PersistentList.erase, hd2, hrc2, hn0, hps]
    exact main _ _ h1 h2
      (storeExt_setNext _ (storeExt_append _ _) (Nat.le_refl _))

/-- Witness for `c9_roundtrip` at a concrete input. -/
theorem c9_roundtrip_witness :
    ∃ l1 l2, (freshPL Int).push_front 0 7 = Res.ok l1 ∧
      l1.pop_front (l1.versionsNumber - 1) = Res.ok l2 ∧
      l2.begin (l2.versionsNumber - 1) = (freshPL Int).begin 0 ∧
      l2.sizeAt (l2.versionsNumber - 1) = (freshPL Int).sizeAt 0 ∧
      StoreExt (freshPL Int).store l2.store ∧
      (∀ c, isChain (freshPL Int).store ((freshPL Int).begin 0) c →
        isChain l2.store (l2.begin (l2.versionsNumber - 1)) c ∧
        elemsOfChain l2.store c = elemsOfChain (freshPL Int).store c) :=
  c9_roundtrip 7 (by decide) (by decide) (by decide)

theorem isChain_nil_inv {α : Type} {s : List (PNode α)} {r : Option Nat}
    (h : isChain s r []) : r = none := by
  cases h
  rfl

/-- Along any version chain, the node named by the last chain entry has a
null `next` pointer. -/
theorem chain_last_next {α : Type} {s : List (PNode α)} :
    ∀ (c : List Nat) (r : Option Nat) (a : Nat),
      isChain s r c → c.getLast? = some a → itNext s (some a) = none := by
  intro c
  induction c with
  | nil =>
    intro r a hc hl
    simp at hl
  | cons a0 rest ih =>
    intro r a hc hl
    cases hc with
    | cons hget hrest =>
      cases rest with
      | nil =>
        simp [List.getLast?] at hl
        cases hl
        have hnone := isChain_nil_inv hrest
        simp only [itNext]
        rw [hget]
        exact hnone
      | cons b rest2 =>
        rw [List.getLast?_cons_cons] at hl
        exact ih _ a hrest hl

/-- Claim C10.  `operator++` is total: incrementing the end iterator leaves
it at end, and incrementing the iterator at the last node of any version's
chain yields the end iterator. -/
theorem c10_iterator_inc_total {α : Type} :
    (∀ s : List (PNode α), itNext s none = none) ∧
    (∀ (l : PersistentList α) (v : Nat) (c : List Nat) (a : Nat),
      isChain l.store (l.begin v) c → c.getLast? = some a →
      itNext l.store (some a) = none) := by
  constructor
  · intro s
    rfl
  · intro l v c a hc hlast
    exact chain_last_next c (l.begin v) a hc hlast

/-- Witness for `c10_iterator_inc_total` at a concrete input: the version
`[5]` of `pbResult`, whose single node sits at address 0. -/
theorem c10_iterator_inc_total_witness :
    itNext pbResult.store (some 0) = none ∧
      itNext pbResult.store (none : Option Nat) = none :=
  ⟨(c10_iterator_inc_total).2 pbResult 1 [0] 0 (isChain.cons rfl isChain.nil) rfl,
   (c10_iterator_inc_total).1 pbResult.store⟩

/-- Claim C5.  Evaluating the failure paths the claim is about:
`pop_back` on the registered empty version 0 dereferences the null root
(undefined behaviour, not a signalled out-of-range failure); `pop_back`
with an unregistered id reads the version vector out of bounds (undefined
behaviour again); `pop_front` on the empty version returns successfully
with the structure unchanged and no failure signalled.  Only
`insert`/`erase` check the version id and throw. -/
theorem c5_empty_pop_not_signalled :
    (freshPL Int).pop_back 0 = Res.err PErr.ub ∧
      (freshPL Int).pop_back 5 = Res.err PErr.ub ∧
      (freshPL Int).pop_front 0 = Res.ok (freshPL Int) ∧
      (freshPL Int).insert 1 none 5 = Res.err PErr.outOfRange := by
  decide

/-! ## VersionTree claim theorems -/

/-- Claim C1.  The claim says that after `insert(c, p)` the query
`order(p, c)` is true, and in particular `order(0, v)` is true for every
inserted `v`.  Evaluating the code at the failing input — a fresh tree
followed by `insert(1, 0)` — shows `order(0, 1)` is `false`: the root's
close event is the `NONE_VERSION` sentinel, so `order(0, v)` compares
`label(-0) = label(0) = 0` and demands the close label of `v` be at most 0,
which never holds for a proper descendant. -/
theorem c1_order_root_child_false :
    (freshVT.insert densLT13 1 0).bind (fun t => t.order 0 1) = some false := by
  decide

/-- Claim C3.  The claim says `_relabelRange` redistributes the window's
occupants at equal spacing, preserving every occupant.  The code sets
`step = rangeEnd - rangeStart` (the whole window, instead of the window
divided by the occupant count as `_relabelAll` does), so the placement loop
runs exactly once: of the occupants `[1, 2]` of the window `[0, 4)` only 1
is written back and occupant 2 disappears from the label table. -/
theorem c3_relabelRange_drops_occupants :
    relabelWindowState.collectRange 0 4 = [1, 2] ∧
      (relabelWindowState.relabelRange 0 4).labelToVersion =
        [1, NONE_VERSION, NONE_VERSION, NONE_VERSION] ∧
      (relabelWindowState.relabelRange 0 4).collectRange 0 4 = [1] := by
  decide

/-- Claim C4.  After the single insertion `insert(1, 0)` into a fresh tree
(threshold model `T = 1.3`), the labels read along the event list
`[0, 1, -1, NONE]` are `0, 2, 3, 3`: the close event of version 1 and the
sentinel share label 3 (not distinct, not strictly increasing), and slot
`M - 1 = 3` of the label table holds `-1` instead of `NONE_VERSION` —
`_insert` never re-checks the gap after relabelling and overwrites the
sentinel slot. -/
theorem c4_labels_duplicate_and_sentinel_overwritten :
    (freshVT.insert densLT13 1 0).map (fun t =>
      (t.events.map (mapGet? t.versionToLabel),
        t.labelToVersion.getD (t.labelsNumber - 1) NONE_VERSION)) =
    some ([some 0, some 2, some 3, some 3], -1) := by
  decide

/-- Claim C7.  `clear()` after `insert(1, 0)` does not restore the freshly
constructed state: `operator==` with a fresh tree is false (the label-space
capacity stays 4 instead of 2 and both maps keep stale entries), and the
previously inserted version 1 is still queryable (`order(1, 1)` answers
`true` from the stale mappings).  `empty()` and `size()` do revert. -/
theorem c7_clear_not_initial :
    (freshVT.insert densLT13 1 0).map (fun t =>
      (t.clear.beq freshVT, t.clear.empty, t.clear.size,
        t.clear.labelsNumber, t.clear.order 1 1)) =
    some (false, true, 1, 4, some true) := by
  decide

/-- Claim C8, counterexample.  The claim expects the event list
`[0 [1 [2 ]2 ]1 [3 ]3 ]0` and `before(0,2) = true`; the code produces
neither. -/
theorem c8_scenario_claim_false :
    ¬ (vtScenC.map (fun t => (t.events, t.order 0 2)) =
        some ([0, 1, 2, -2, -1, 3, -3, NONE_VERSION], some true)) := by
  decide

/-- Claim C8, amended.  The code inserts each child immediately after its
parent's open event, so version 3's bracket precedes version 1's:
`[0 [3 ]3 [1 [2 ]2 ]1 ]0` (the root's close bracket is the sentinel), and
the queries return `before(0,2) = false` (root queries are false for every
proper descendant), `before(1,3) = false`, `before(3,1) = false`,
`before(2,1) = false`, `before(1,2) = true`. -/
theorem c8_scenario_actual :
    vtScenC.map (fun t =>
      (t.events, [t.order 0 2, t.order 1 3, t.order 3 1, t.order 2 1,
        t.order 1 2])) =
    some ([0, 3, -3, 1, 2, -2, -1, NONE_VERSION],
      [some false, some false, some false, some false, some true]) := by
  decide
